import Mathlib

/-!
Shallow embedding of `src/main.rs` of the thumbnail-zkp repository: a batched
pixel-selection circuit (clinkv2-style R1CS traces) together with the prover
pipeline of `main` (block geometry, per-block sampling, thumbnail buffer,
public-input assembly).  External collaborators (the KZG10 proof backend and
the image codec) are modelled from the spec at their interface boundary; every
other definition is a direct translation of the Rust source.
-/

namespace ThumbnailZkp

/-- Modulus of the scalar field `Fr` of the `Bn_256` curve used by the program
(`zkp_toolkit::bn_256::Fr`, the BN254 / alt_bn128 scalar field). -/
def frModulus : Nat :=
  21888242871839275222246405745257275088548364400416034343698204186575808495617

/-- The proof system's scalar field, `zkp_toolkit::bn_256::Fr`. -/
abbrev Fr := ZMod frModulus

/-- One RGBA pixel: `image::Rgba<u8>`, four channel bytes.  `to_rgba()` in the
source always produces this four-byte form before encoding. -/
structure Rgba where
  r : Fin 256
  g : Fin 256
  b : Fin 256
  a : Fin 256
deriving DecidableEq

/-- The all-zero pixel, the initial content of `ImageBuffer::new`. -/
def zeroRgba : Rgba := ⟨0, 0, 0, 0⟩

/-- `as_bytes` (src/main.rs lines 58-63): reinterprets the `Rgba<u8>` value as
its raw bytes.  For `Rgba<u8>` the memory layout is the four channel bytes in
order `r, g, b, a`. -/
def as_bytes (px : Rgba) : List Nat := [px.r.val, px.g.val, px.b.val, px.a.val]

/-- Little-endian interpretation of a byte list as a natural number; this is
how the backing field library reads a byte slice into a field element. -/
def bytesToNatLE : List Nat → Nat
  | [] => 0
  | byte :: rest => byte + 256 * bytesToNatLE rest

/-- `Fr::from_random_bytes` of the math backend: deserialises the bytes as a
little-endian integer, failing when the value is not a canonical field
element.  For the 4-byte inputs produced by `as_bytes` the value is below
`2^32 < frModulus`, so the call always succeeds. -/
def from_random_bytes (bs : List Nat) : Option Fr :=
  if bytesToNatLE bs < frModulus then some ((bytesToNatLE bs : Nat) : Fr) else none

/-- The value of a successful pixel encoding: the pixel's bytes read as a
little-endian integer, cast into the scalar field. -/
def encodePixel (px : Rgba) : Fr := ((bytesToNatLE (as_bytes px) : Nat) : Fr)

/-- The pixel-encoding expression as `main` writes it:
`Fr::from_random_bytes(as_bytes(&pixel)).unwrap()`.  The unwrap never panics
(see `from_random_bytes_as_bytes`), so it is modelled by `Option.getD`. -/
def encodePixelU (px : Rgba) : Fr := (from_random_bytes (as_bytes px)).getD 0

/-! ## The constraint-system interface (clinkv2 r1cs)

`ProveAssignment` / `VerifyAssignment` are modelled as the trace of events a
`generate_constraints` call issues against them: public (input) allocations,
witness (aux) allocations, and `enforce` calls.  Variables are numbered in
allocation order within the instance-0 structural description; `CS::one()` is
the first public variable (`Var.input 0`), which the circuit allocates bound
to `F::one()`. -/

/-- A constraint-system variable handle: public input or private aux
(witness), numbered in allocation order. -/
inductive Var where
  | input : Nat → Var
  | aux : Nat → Var
deriving DecidableEq

/-- A linear combination: list of (variable, coefficient) pairs.  `lc + var`
in the source adds a variable with coefficient one. -/
abbrev LinComb := List (Var × Fr)

/-- One event issued against the constraint system.  Allocation events record
the value the supplied closure would yield (`none` when absent, as on the
verifier path). -/
inductive Event where
  | allocInput : Option Fr → Event
  | allocAux : Option Fr → Event
  | enforce : LinComb → LinComb → LinComb → Event
deriving DecidableEq

/-- Which realization of the constraint system a call runs against:
`ProveAssignment` evaluates allocation closures (an absent value is
`SynthesisError::AssignmentMissing`); `VerifyAssignment` is structural only
and never evaluates witness closures. -/
inductive Mode where
  | prove
  | verify
deriving DecidableEq

/-- Failure of a `generate_constraints` call.  `assignmentMissing` is
`SynthesisError::AssignmentMissing`; `indexOutOfBounds` models the Rust panic
of `var_inps[self.p]` when `p` is not below the array length. -/
inductive GCError where
  | assignmentMissing
  | indexOutOfBounds
deriving DecidableEq

/-- The circuit struct `Thumbnail<F>` (src/main.rs lines 14-19), instantiated
at `F = Fr` as in `main`.  `inps` is the 100-slot pixel array
(`[Option<F>; 100]`), `out` the output pixel, `p` the selection position. -/
structure Thumbnail where
  inps : List (Option Fr)
  out : Option Fr
  p : Nat
deriving DecidableEq

/-- One allocation against the constraint system: in `prove` mode the value
closure is evaluated and a missing value is `AssignmentMissing`; in `verify`
mode the closure is not evaluated and allocation always succeeds (the
recorded value is the closure's would-be result, kept for bookkeeping). -/
def allocEval (mode : Mode) (v : Option Fr) : Except GCError (Option Fr) :=
  match mode, v with
  | Mode.prove, some x => Except.ok (some x)
  | Mode.prove, none => Except.error GCError.assignmentMissing
  | Mode.verify, w => Except.ok w

/-- The `for i in &self.inps { var_inps.push(cs.alloc(..)?) }` loop: one aux
allocation per slot, aborting at the first missing prover value. -/
def allocAll (mode : Mode) : List (Option Fr) → Except GCError (List Event)
  | [] => Except.ok []
  | v :: vs =>
    match allocEval mode v with
    | Except.error e => Except.error e
    | Except.ok x =>
      match allocAll mode vs with
      | Except.error e => Except.error e
      | Except.ok rest => Except.ok (Event.allocAux x :: rest)

/-- `Thumbnail::generate_constraints` (src/main.rs lines 21-56): allocate the
one-wire public input bound to `F::one()`, one aux variable per `inps` slot,
the public output variable, and — only when `index == 0` — enforce
`var_inps[p] * CS::one() = var_o`.  The aux variables are numbered `0..` in
allocation order, so `var_inps[p]` is `Var.aux p`; `CS::one()` is
`Var.input 0` and `var_o` is `Var.input 1`. -/
def generate_constraints (mode : Mode) (c : Thumbnail) (index : Nat) :
    Except GCError (List Event) :=
  match allocEval mode (some (1 : Fr)) with
  | Except.error e => Except.error e
  | Except.ok v0 =>
    match allocAll mode c.inps with
    | Except.error e => Except.error e
    | Except.ok auxEvents =>
      match allocEval mode c.out with
      | Except.error e => Except.error e
      | Except.ok vo =>
        if index = 0 then
          if c.p < c.inps.length then
            Except.ok (Event.allocInput v0 :: auxEvents ++
              [Event.allocInput vo,
               Event.enforce [(Var.aux c.p, (1 : Fr))]
                 [(Var.input 0, (1 : Fr))] [(Var.input 1, (1 : Fr))]])
          else Except.error GCError.indexOutOfBounds
        else Except.ok (Event.allocInput v0 :: auxEvents ++ [Event.allocInput vo])

/-! ## The protocol driver (`main`, src/main.rs lines 65-188) -/

/-- A decoded source image: dimensions plus a pixel lookup
(`img.get_pixel(x, y).to_rgba()`).  The lookup is total here; `main` only ever
reads in-bounds coordinates (see the C6 theorem). -/
structure Image where
  width : Nat
  height : Nat
  pixel : Nat → Nat → Rgba

/-- The output `ImageBuffer` as a pixel map. -/
abbrev Buf := Nat → Nat → Rgba

/-- `ImageBuffer::put_pixel`. -/
def putPixel (buf : Buf) (x y : Nat) (px : Rgba) : Buf :=
  fun a b => if a = x ∧ b = y then px else buf a b

/-- `let n = 10u32;` — the downsampling ratio (src/main.rs line 74). -/
def n : Nat := 10

/-- `let p = 5u32;` — the selection position in the block matrix
(src/main.rs line 75). -/
def p : Nat := 5

/-- `let new_x = x / n;` — block-grid width, truncating integer division. -/
def new_x (img : Image) : Nat := img.width / n

/-- `let new_y = y / n;` — block-grid height, truncating integer division. -/
def new_y (img : Image) : Nat := img.height / n

/-- `let m = new_x * new_y;` — the block count (src/main.rs line 83). -/
def m (img : Image) : Nat := new_x img * new_y img

/-- `u32::next_power_of_two` of the standard library, on `Nat`: `1` for
inputs below `2`, otherwise `2 ^ (bitlength (x - 1))` exactly as the Rust
implementation computes it from `(x - 1).leading_zeros()`. -/
def next_power_of_two (x : Nat) : Nat :=
  if x ≤ 1 then 1 else 2 ^ (Nat.log2 (x - 1) + 1)

/-- `let degree = m.next_power_of_two() as usize;` (src/main.rs line 86) —
the size passed to `KZG10::setup` and `KZG10::trim`. -/
def degree (img : Image) : Nat := next_power_of_two (m img)

/-- The inner double loop of the prover pass (src/main.rs lines 106-118): for
one block `(m_x, m_y)`, walk `i, j` over `0..n`, encode every source pixel of
the block into the 100-slot `tmp_pixels` array at flattened index `i*n + j`,
and write the pixel at flattened index `p` into the thumbnail buffer.  The
state is `(tmp_pixels, out_file)`. -/
def blockLoop (img : Image) (m_x m_y : Nat) (st : List (Option Fr) × Buf) :
    List (Option Fr) × Buf :=
  (List.range n).foldl (fun st1 i =>
    (List.range n).foldl (fun st2 j =>
      let tmp_x := m_x * n + i
      let tmp_y := m_y * n + j
      let pixel := img.pixel tmp_x tmp_y
      let fr := encodePixelU pixel
      let buf2 := if i * n + j = p then putPixel st2.2 m_x m_y pixel else st2.2
      (st2.1.set (i * n + j) (some fr), buf2)) st1) st

/-- The body of the prover pass for one block (src/main.rs lines 105-128):
start from `[Some(Fr::zero()); 100]`, run `blockLoop`, read
`tmp_out = tmp_pixels[p]`, and record the `Thumbnail` circuit instance
together with the instance index `m_x * new_y + m_y` it is synthesized at. -/
def proverBlock (img : Image) (ny m_x : Nat) (acc : List (Thumbnail × Nat) × Buf)
    (m_y : Nat) : List (Thumbnail × Nat) × Buf :=
  let st := blockLoop img m_x m_y (List.replicate 100 (some (0 : Fr)), acc.2)
  let tmp_out := st.1.getD p none
  let c : Thumbnail := ⟨st.1, tmp_out, p⟩
  (acc.1 ++ [(c, m_x * ny + m_y)], st.2)

/-- The prover pass (src/main.rs lines 104-129): iterate blocks with `m_x`
outer and `m_y` inner, running `proverBlock` for each.  Returns the circuit
instances in call order, with the index each is synthesized at, and the final
thumbnail buffer (`ImageBuffer::new` starts all-zero). -/
def proverLoop (img : Image) (nx ny : Nat) : List (Thumbnail × Nat) × Buf :=
  (List.range nx).foldl (fun acc m_x =>
    (List.range ny).foldl (proverBlock img ny m_x) acc)
    ([], fun _ _ => zeroRgba)

/-- The prover pass at the bounds `main` uses: `0..new_x` and `0..new_y`. -/
def proverRun (img : Image) : List (Thumbnail × Nat) × Buf :=
  proverLoop img (new_x img) (new_y img)

/-- The verifier-side circuit instance (src/main.rs lines 146-150): all 100
witness slots and the output absent, same `p`. -/
def verify_c : Thumbnail := ⟨List.replicate 100 none, none, p⟩

/-- The `output_fr` loop of the verification stage (src/main.rs lines
160-166): re-encode the thumbnail buffer's pixels, `m_x` outer, `m_y`
inner. -/
def output_fr (buf : Buf) (nx ny : Nat) : List Fr :=
  (List.range nx).foldl (fun acc m_x =>
    (List.range ny).foldl (fun acc2 m_y =>
      acc2 ++ [encodePixelU (buf m_x m_y)]) acc) []

/-- The Public Input Vector `io` (src/main.rs lines 157-170): the
constant-one group `vec![Fr::one(); new_x * new_y]` followed by the
re-encoded thumbnail pixel group.  Note the pixels are read from the
in-memory buffer `out_file`, not re-loaded from the saved file. -/
def io_vec (buf : Buf) (nx ny : Nat) : List (List Fr) :=
  [List.replicate (nx * ny) (1 : Fr), output_fr buf nx ny]

/-- Modelled from the spec: the external KZG10 proof backend
(`create_random_proof` / `verify_proof`, not part of this repository) treated
as an ideal complete and sound argument for the batched statement.  The proof
carries the prover's per-instance assignments; verification succeeds exactly
when the public input vector has the two groups the verifier statement
allocated, each of one entry per instance, every instance's public values
match the prover's assignments (`1` on the one-wire, the instance's `out` on
the output wire), and the enforced constraint `inps[p] * one = out` holds on
those assignments. -/
def verify_proof (proofInstances : List Thumbnail) (pubio : List (List Fr)) : Bool :=
  match pubio with
  | [ones, outs] =>
    (ones.length = proofInstances.length : Bool) &&
    (outs.length = proofInstances.length : Bool) &&
    (List.zip proofInstances (List.zip ones outs)).all (fun ci =>
      (ci.2.1 = (1 : Fr) : Bool) &&
      (ci.1.out = some ci.2.2 : Bool) &&
      ((ci.1.inps.getD ci.1.p none).map (fun aval => aval * ci.2.1)
        = some ci.2.2 : Bool))
  | _ => false

/-- Modelled from the spec: the Public Input Vector as the specification
describes it — built by re-reading the *persisted* thumbnail image (the image
codec's save/load round trip applied to the buffer) instead of the in-memory
buffer.  `roundtrip` is the codec's save-then-load behavior, about which the
spec's interface (§6) gives no losslessness guarantee. -/
def io_vec_spec (roundtrip : Buf → Buf) (buf : Buf) (nx ny : Nat) : List (List Fr) :=
  [List.replicate (nx * ny) (1 : Fr), output_fr (roundtrip buf) nx ny]

/-! ## Derived forms used to state the theorems -/

/-- Row-major enumeration of the block coordinates, written from the spec's
description of the iteration order (outer loop over one block axis, inner
loop over the other): the comparison point for the loop order the code
actually uses. -/
def rowMajor (nx ny : Nat) : List (Nat × Nat) :=
  (List.range nx).flatMap (fun a => (List.range ny).map (fun b => (a, b)))

/-- What `tmp_pixels` holds after `blockLoop` on block `(m_x, m_y)`: slot `k`
carries the encoded source pixel at block-local offsets `(k / n, k % n)`. -/
def pixelList (img : Image) (m_x m_y : Nat) : List (Option Fr) :=
  (List.range 100).map (fun k =>
    some (encodePixelU (img.pixel (m_x * n + k / n) (m_y * n + k % n))))

/-- The source pixel a block contributes to the thumbnail: block-local
flattened index `p`, i.e. offsets `(p / n, p % n)`. -/
def selPixel (img : Image) (m_x m_y : Nat) : Rgba :=
  img.pixel (m_x * n + p / n) (m_y * n + p % n)

/-- The circuit instance the prover pass builds for block `(m_x, m_y)`,
paired with its instance index. -/
def mkInstance (img : Image) (ny m_x m_y : Nat) : Thumbnail × Nat :=
  (⟨pixelList img m_x m_y, (pixelList img m_x m_y).getD p none, p⟩, m_x * ny + m_y)

/-- One thumbnail-buffer write: store the selected pixel of block `bc`. -/
def writeThumb (img : Image) (buf : Buf) (bc : Nat × Nat) : Buf :=
  putPixel buf bc.1 bc.2 (selPixel img bc.1 bc.2)

/-- The events a successful `generate_constraints` call always issues, in
order: the one-wire public allocation, one aux allocation per `inps` slot,
the public output allocation. -/
def baseEvents (c : Thumbnail) : List Event :=
  Event.allocInput (some 1) :: c.inps.map Event.allocAux ++ [Event.allocInput c.out]

/-- The single constraint the circuit enforces at instance index `0`:
`inps[p] * one = out` with the one-wire `Var.input 0` and the output wire
`Var.input 1`. -/
def enforceEvent (c : Thumbnail) : Event :=
  Event.enforce [(Var.aux c.p, (1 : Fr))] [(Var.input 0, (1 : Fr))]
    [(Var.input 1, (1 : Fr))]

/-- Recognizer for `enforce` events. -/
def isEnforce : Event → Bool
  | Event.enforce _ _ _ => true
  | _ => false

/-- Recognizer for public-input allocation events. -/
def isAllocInput : Event → Bool
  | Event.allocInput _ => true
  | _ => false

/-- Recognizer for witness allocation events. -/
def isAllocAux : Event → Bool
  | Event.allocAux _ => true
  | _ => false

/-! ## Concrete inputs for witnesses and counterexamples -/

/-- A 10-by-10 source image, every pixel `(1, 0, 0, 0)`: one single block. -/
def imgC3 : Image := ⟨10, 10, fun _ _ => ⟨1, 0, 0, 0⟩⟩

/-- An image-codec save/load round trip that loses the pixel data (the spec's
codec interface gives no losslessness guarantee): every pixel of the loaded
image comes back zero. -/
def lossyRoundtrip : Buf → Buf := fun _ => fun _ _ => zeroRgba

/-- A 20-by-20 source image whose pixel at `(x, y)` stores `x` and `y` in its
first two channels: the spec's concrete scenario (4 blocks). -/
def img20 : Image :=
  ⟨20, 20, fun x y => ⟨⟨x % 256, Nat.mod_lt x (by norm_num)⟩,
    ⟨y % 256, Nat.mod_lt y (by norm_num)⟩, 0, 0⟩⟩

/-- A 25-by-25 source image, constant pixels: its dimensions are not
multiples of `n`, so five trailing rows and columns are truncated. -/
def img25 : Image := ⟨25, 25, fun _ _ => ⟨3, 0, 0, 0⟩⟩

/-- Like `img25` but with different pixels in the trailing five rows and
columns that block geometry truncates away. -/
def img25' : Image :=
  ⟨25, 25, fun x y => if x < 20 ∧ y < 20 then ⟨3, 0, 0, 0⟩ else ⟨9, 9, 9, 9⟩⟩

/-! ## Helper lemmas -/

theorem bytesToNatLE_as_bytes_lt (px : Rgba) :
    bytesToNatLE (as_bytes px) < 4294967296 := by
  have hr := px.r.isLt
  have hg := px.g.isLt
  have hb := px.b.isLt
  have ha := px.a.isLt
  simp only [as_bytes, bytesToNatLE]
  omega

theorem from_random_bytes_as_bytes (px : Rgba) :
    from_random_bytes (as_bytes px) = some (encodePixel px) := by
  have h := bytesToNatLE_as_bytes_lt px
  have h2 : bytesToNatLE (as_bytes px) < frModulus := by
    refine lt_trans h ?_
    norm_num [frModulus]
  simp [from_random_bytes, h2, encodePixel]

theorem encodePixelU_eq (px : Rgba) : encodePixelU px = encodePixel px := by
  rw [encodePixelU, from_random_bytes_as_bytes]
  rfl

theorem foldl_flatMap_pairs {σ : Type _} (g : σ → Nat × Nat → σ) :
    ∀ (li lj : List Nat) (s : σ),
      li.foldl (fun s1 i => lj.foldl (fun s2 j => g s2 (i, j)) s1) s
        = (li.flatMap (fun i => lj.map (fun j => (i, j)))).foldl g s
  | [], _, s => by simp
  | i :: is, lj, s => by
      simp only [List.foldl_cons, List.flatMap_cons, List.foldl_append, List.foldl_map]
      exact foldl_flatMap_pairs g is lj _

theorem foldl_prod_split {α β γ : Type _} (f1 : α → γ → α) (f2 : β → γ → β) :
    ∀ (l : List γ) (a : α) (b : β),
      l.foldl (fun s x => (f1 s.1 x, f2 s.2 x)) (a, b) = (l.foldl f1 a, l.foldl f2 b)
  | [], _, _ => rfl
  | x :: xs, a, b => by
      simp only [List.foldl_cons]
      exact foldl_prod_split f1 f2 xs (f1 a x) (f2 b x)

theorem foldl_set_range {α : Type _} (F : Nat → α) :
    ∀ (M : Nat) (init : List α), M ≤ init.length →
      (List.range M).foldl (fun l k => l.set k (F k)) init
        = (List.range M).map F ++ init.drop M := by
  intro M
  induction M with
  | zero => intro init _; simp
  | succ M ih =>
    intro init h
    have hM : M < init.length := Nat.lt_of_lt_of_le (Nat.lt_succ_self M) h
    rw [List.range_succ, List.foldl_append, List.map_append,
      ih init (Nat.le_of_lt hM)]
    simp only [List.foldl_cons, List.foldl_nil, List.map_cons, List.map_nil]
    rw [List.set_append]
    simp only [List.length_map, List.length_range, lt_irrefl, if_false,
      Nat.sub_self]
    rw [List.drop_eq_getElem_cons hM, List.set_cons_zero]
    simp

theorem foldl_ite_eq_filter {σ α : Type _} (P : α → Prop) [DecidablePred P]
    (g : σ → α → σ) :
    ∀ (l : List α) (s : σ),
      l.foldl (fun b x => if P x then g b x else b) s
        = (l.filter (fun x => decide (P x))).foldl g s
  | [], _ => rfl
  | x :: xs, s => by
      simp only [List.foldl_cons, List.filter_cons, decide_eq_true_eq]
      by_cases h : P x
      · simp only [h, if_true, List.foldl_cons]
        exact foldl_ite_eq_filter P g xs _
      · simp only [h, if_false]
        exact foldl_ite_eq_filter P g xs _

theorem rowMajor_succ (nx ny : Nat) :
    rowMajor (nx + 1) ny = rowMajor nx ny ++ (List.range ny).map (fun b => (nx, b)) := by
  simp [rowMajor, List.range_succ]

theorem rowMajor_map_idx (nx ny : Nat) :
    (rowMajor nx ny).map (fun bc => bc.1 * ny + bc.2) = List.range (nx * ny) := by
  induction nx with
  | zero => simp [rowMajor]
  | succ k ih =>
    rw [rowMajor_succ, List.map_append, ih, Nat.succ_mul, List.range_add]
    simp [List.map_map, Function.comp]

theorem rowMajor_length (nx ny : Nat) : (rowMajor nx ny).length = nx * ny := by
  have h := congrArg List.length (rowMajor_map_idx nx ny)
  simpa using h

theorem mem_rowMajor {a b nx ny : Nat} :
    (a, b) ∈ rowMajor nx ny ↔ a < nx ∧ b < ny := by
  simp [rowMajor]

theorem blockLoop_as_pairs (img : Image) (m_x m_y : Nat)
    (st : List (Option Fr) × Buf) :
    blockLoop img m_x m_y st =
      (rowMajor n n).foldl (fun s2 ij =>
        (s2.1.set (ij.1 * n + ij.2)
           (some (encodePixelU (img.pixel (m_x * n + ij.1) (m_y * n + ij.2)))),
         if ij.1 * n + ij.2 = p
           then putPixel s2.2 m_x m_y (img.pixel (m_x * n + ij.1) (m_y * n + ij.2))
           else s2.2)) st :=
  foldl_flatMap_pairs (fun (s2 : List (Option Fr) × Buf) (ij : Nat × Nat) =>
      (s2.1.set (ij.1 * n + ij.2)
         (some (encodePixelU (img.pixel (m_x * n + ij.1) (m_y * n + ij.2)))),
       if ij.1 * n + ij.2 = p
         then putPixel s2.2 m_x m_y (img.pixel (m_x * n + ij.1) (m_y * n + ij.2))
         else s2.2))
    (List.range n) (List.range n) st

theorem blockLoop_split (img : Image) (m_x m_y : Nat) (L : List (Option Fr))
    (buf : Buf) :
    blockLoop img m_x m_y (L, buf) =
      ((rowMajor n n).foldl (fun l ij => l.set (ij.1 * n + ij.2)
          (some (encodePixelU (img.pixel (m_x * n + ij.1) (m_y * n + ij.2))))) L,
       (rowMajor n n).foldl (fun b ij =>
          if ij.1 * n + ij.2 = p
            then putPixel b m_x m_y (img.pixel (m_x * n + ij.1) (m_y * n + ij.2))
            else b) buf) := by
  rw [blockLoop_as_pairs]
  exact foldl_prod_split
    (fun (l : List (Option Fr)) (ij : Nat × Nat) => l.set (ij.1 * n + ij.2)
      (some (encodePixelU (img.pixel (m_x * n + ij.1) (m_y * n + ij.2)))))
    (fun (b : Buf) (ij : Nat × Nat) =>
      if ij.1 * n + ij.2 = p
        then putPixel b m_x m_y (img.pixel (m_x * n + ij.1) (m_y * n + ij.2))
        else b)
    (rowMajor n n) L buf

theorem tmp_pixels_run (img : Image) (m_x m_y : Nat) :
    (rowMajor n n).foldl (fun l ij => l.set (ij.1 * n + ij.2)
        (some (encodePixelU (img.pixel (m_x * n + ij.1) (m_y * n + ij.2)))))
        (List.replicate 100 (some (0 : Fr)))
      = pixelList img m_x m_y := by
  have hext : ∀ (l : List (Option Fr)), ∀ ij ∈ rowMajor n n,
      l.set (ij.1 * n + ij.2)
          (some (encodePixelU (img.pixel (m_x * n + ij.1) (m_y * n + ij.2))))
        = l.set (ij.1 * n + ij.2)
          (some (encodePixelU (img.pixel (m_x * n + (ij.1 * n + ij.2) / n)
            (m_y * n + (ij.1 * n + ij.2) % n)))) := by
    intro l ij hij
    obtain ⟨i, j⟩ := ij
    have hj : j < n := (mem_rowMajor.mp hij).2
    have hdiv : (i * n + j) / n = i := by
      rw [Nat.add_comm, Nat.add_mul_div_right _ _ (by norm_num [n] : 0 < n),
        Nat.div_eq_of_lt hj, Nat.zero_add]
    have hmod : (i * n + j) % n = j := by
      rw [Nat.add_comm, Nat.add_mul_mod_self_right, Nat.mod_eq_of_lt hj]
    rw [hdiv, hmod]
  rw [List.foldl_ext _ _ _ hext]
  rw [← List.foldl_map (fun ij : Nat × Nat => ij.1 * n + ij.2)
    ((fun l k => l.set k (some (encodePixelU
        (img.pixel (m_x * n + k / n) (m_y * n + k % n))))) :
      List (Option Fr) → Nat → List (Option Fr))]
  rw [rowMajor_map_idx]
  have h100 : n * n = 100 := rfl
  rw [h100]
  rw [foldl_set_range _ _ _ (by simp)]
  simp [pixelList]

theorem thumb_write_run (img : Image) (m_x m_y : Nat) (buf : Buf) :
    (rowMajor n n).foldl (fun b ij =>
        if ij.1 * n + ij.2 = p
          then putPixel b m_x m_y (img.pixel (m_x * n + ij.1) (m_y * n + ij.2))
          else b) buf
      = putPixel buf m_x m_y (selPixel img m_x m_y) := by
  rw [foldl_ite_eq_filter (fun ij : Nat × Nat => ij.1 * n + ij.2 = p)
    (fun b ij => putPixel b m_x m_y (img.pixel (m_x * n + ij.1) (m_y * n + ij.2)))]
  rw [(by decide :
    (rowMajor n n).filter (fun ij => decide (ij.1 * n + ij.2 = p)) = [(0, 5)])]
  simp only [List.foldl_cons, List.foldl_nil]
  norm_num [selPixel, n, p]

theorem blockLoop_run (img : Image) (m_x m_y : Nat) (buf : Buf) :
    blockLoop img m_x m_y (List.replicate 100 (some (0 : Fr)), buf) =
      (pixelList img m_x m_y, putPixel buf m_x m_y (selPixel img m_x m_y)) := by
  rw [blockLoop_split, tmp_pixels_run, thumb_write_run]

theorem proverBlock_eq (img : Image) (ny m_x m_y : Nat)
    (acc : List (Thumbnail × Nat) × Buf) :
    proverBlock img ny m_x acc m_y
      = (acc.1 ++ [mkInstance img ny m_x m_y], writeThumb img acc.2 (m_x, m_y)) := by
  simp only [proverBlock]
  rw [blockLoop_run]
  simp [mkInstance, writeThumb]

theorem proverInner_eq (img : Image) (ny m_x : Nat) :
    ∀ (l : List Nat) (acc : List (Thumbnail × Nat) × Buf),
      l.foldl (proverBlock img ny m_x) acc
        = (acc.1 ++ l.map (fun m_y => mkInstance img ny m_x m_y),
           l.foldl (fun b m_y => writeThumb img b (m_x, m_y)) acc.2)
  | [], acc => by simp
  | y :: ys, acc => by
      simp only [List.foldl_cons]
      rw [proverBlock_eq, proverInner_eq img ny m_x ys]
      simp

theorem proverOuter_eq (img : Image) (ny : Nat) :
    ∀ (l : List Nat) (acc : List (Thumbnail × Nat) × Buf),
      l.foldl (fun a m_x => (List.range ny).foldl (proverBlock img ny m_x) a) acc
        = (acc.1 ++ l.flatMap (fun m_x =>
              (List.range ny).map (fun m_y => mkInstance img ny m_x m_y)),
           (l.flatMap (fun m_x =>
              (List.range ny).map (fun m_y => (m_x, m_y)))).foldl (writeThumb img) acc.2)
  | [], acc => by simp
  | x :: xs, acc => by
      simp only [List.foldl_cons]
      rw [proverInner_eq, proverOuter_eq img ny xs]
      simp [List.flatMap_cons, List.foldl_append, List.foldl_map, List.append_assoc]

theorem proverLoop_eq (img : Image) (nx ny : Nat) :
    proverLoop img nx ny
      = ((rowMajor nx ny).map (fun bc => mkInstance img ny bc.1 bc.2),
         (rowMajor nx ny).foldl (writeThumb img) (fun _ _ => zeroRgba)) := by
  show (List.range nx).foldl
      (fun a m_x => (List.range ny).foldl (proverBlock img ny m_x) a)
      ([], fun _ _ => zeroRgba) = _
  rw [proverOuter_eq]
  simp [rowMajor, List.map_flatMap, List.map_map, Function.comp_def]

theorem foldl_writeThumb_apply (img : Image) :
    ∀ (L : List (Nat × Nat)) (init : Buf) (a b : Nat),
      (L.foldl (writeThumb img) init) a b
        = if (a, b) ∈ L then selPixel img a b else init a b
  | [], init, a, b => by simp
  | x :: xs, init, a, b => by
      simp only [List.foldl_cons]
      rw [foldl_writeThumb_apply img xs]
      obtain ⟨x1, x2⟩ := x
      by_cases hmem : (a, b) ∈ xs
      · simp [hmem, List.mem_cons]
      · by_cases hx : a = x1 ∧ b = x2
        · obtain ⟨h1, h2⟩ := hx
          subst h1
          subst h2
          simp [hmem, writeThumb, putPixel, List.mem_cons]
        · have hne : ¬((a, b) = (x1, x2)) := by
            simp only [Prod.mk.injEq]
            exact hx
          simp [hne, hmem, writeThumb, putPixel, hx, List.mem_cons]

theorem proverLoop_buf (img : Image) (nx ny a b : Nat) (ha : a < nx)
    (hb : b < ny) : (proverLoop img nx ny).2 a b = selPixel img a b := by
  rw [proverLoop_eq]
  simp [foldl_writeThumb_apply, mem_rowMajor, ha, hb]

theorem pixelList_length (img : Image) (m_x m_y : Nat) :
    (pixelList img m_x m_y).length = 100 := by
  simp [pixelList]

theorem pixelList_all_some (img : Image) (m_x m_y : Nat) :
    ∀ x ∈ pixelList img m_x m_y, x ≠ none := by
  intro x hx
  simp only [pixelList, List.mem_map] at hx
  obtain ⟨k, _, rfl⟩ := hx
  simp

theorem pixelList_getD (img : Image) (m_x m_y : Nat) :
    (pixelList img m_x m_y).getD p none
      = some (encodePixelU (selPixel img m_x m_y)) := by
  rw [List.getD_eq_getElem?_getD]
  rw [pixelList, List.getElem?_map, List.getElem?_range (by norm_num [p] : p < 100)]
  rfl

theorem allocEval_ok_inv (mode : Mode) (v x : Option Fr)
    (h : allocEval mode v = Except.ok x) : x = v := by
  cases mode with
  | prove =>
    cases v with
    | some y =>
      simp only [allocEval, Except.ok.injEq] at h
      exact h.symm
    | none => simp [allocEval] at h
  | verify =>
    simp only [allocEval, Except.ok.injEq] at h
    exact h.symm

theorem allocAll_verify (l : List (Option Fr)) :
    allocAll Mode.verify l = Except.ok (l.map Event.allocAux) := by
  induction l with
  | nil => rfl
  | cons v vs ih => simp [allocAll, allocEval, ih]

theorem allocAll_prove (l : List (Option Fr)) (h : ∀ x ∈ l, x ≠ none) :
    allocAll Mode.prove l = Except.ok (l.map Event.allocAux) := by
  induction l with
  | nil => rfl
  | cons v vs ih =>
    have hv : v ≠ none := h v (List.mem_cons_self _ _)
    have ih2 := ih (fun y hy => h y (List.mem_cons_of_mem _ hy))
    cases v with
    | none => exact absurd rfl hv
    | some x => simp [allocAll, allocEval, ih2]

theorem allocAll_ok_inv (mode : Mode) (l : List (Option Fr)) (evs : List Event)
    (h : allocAll mode l = Except.ok evs) : evs = l.map Event.allocAux := by
  induction l generalizing evs with
  | nil =>
    simp only [allocAll, Except.ok.injEq] at h
    simp [← h]
  | cons v vs ih =>
    simp only [allocAll] at h
    cases hv : allocEval mode v with
    | error e => rw [hv] at h; simp at h
    | ok x =>
      rw [hv] at h
      cases hrest : allocAll mode vs with
      | error e => rw [hrest] at h; simp at h
      | ok rest =>
        rw [hrest] at h
        simp only [Except.ok.injEq] at h
        have hxv : x = v := allocEval_ok_inv mode v x hv
        subst hxv
        rw [← h]
        simp [ih rest hrest]

theorem gc_eq (mode : Mode) (c : Thumbnail) (index : Nat)
    (h : mode = Mode.verify ∨ ((∀ x ∈ c.inps, x ≠ none) ∧ c.out ≠ none)) :
    generate_constraints mode c index =
      if index = 0 then
        (if c.p < c.inps.length
          then Except.ok (baseEvents c ++ [enforceEvent c])
          else Except.error GCError.indexOutOfBounds)
      else Except.ok (baseEvents c) := by
  have hone : allocEval mode (some (1 : Fr)) = Except.ok (some 1) := by
    cases mode <;> rfl
  have haux : allocAll mode c.inps = Except.ok (c.inps.map Event.allocAux) := by
    rcases h with hm | ⟨hi, _⟩
    · subst hm; exact allocAll_verify _
    · cases mode with
      | prove => exact allocAll_prove _ hi
      | verify => exact allocAll_verify _
  have hout : allocEval mode c.out = Except.ok c.out := by
    cases mode with
    | verify => rfl
    | prove =>
      rcases h with hm | ⟨_, ho⟩
      · exact absurd hm (by simp)
      · cases hv : c.out with
        | none => exact absurd hv ho
        | some o => rfl
  simp only [generate_constraints, hone, haux, hout]
  by_cases hidx : index = 0
  · by_cases hp : c.p < c.inps.length
    · simp [hidx, hp, baseEvents, enforceEvent]
    · simp [hidx, hp]
  · simp [hidx, baseEvents]

theorem gc_ok_inv (mode : Mode) (c : Thumbnail) (index : Nat) (evs : List Event)
    (h : generate_constraints mode c index = Except.ok evs) :
    evs = baseEvents c ++ (if index = 0 then [enforceEvent c] else [])
      ∧ (index = 0 → c.p < c.inps.length) := by
  have hone : allocEval mode (some (1 : Fr)) = Except.ok (some 1) := by
    cases mode <;> rfl
  simp only [generate_constraints, hone] at h
  cases haux : allocAll mode c.inps with
  | error e => rw [haux] at h; simp at h
  | ok auxEvs =>
    rw [haux] at h
    cases hout : allocEval mode c.out with
    | error e => rw [hout] at h; simp at h
    | ok vo =>
      rw [hout] at h
      have hvo : vo = c.out := allocEval_ok_inv _ _ _ hout
      have hauxe : auxEvs = c.inps.map Event.allocAux := allocAll_ok_inv _ _ _ haux
      subst hvo
      subst hauxe
      by_cases hidx : index = 0
      · by_cases hp : c.p < c.inps.length
        · simp only [hidx, if_true, hp] at h
          simp only [Except.ok.injEq] at h
          refine ⟨?_, fun _ => hp⟩
          rw [← h]
          simp [baseEvents, enforceEvent, hidx]
        · simp only [hidx, if_true, hp, if_false] at h
          simp at h
      · simp only [hidx, if_false] at h
        simp only [Except.ok.injEq] at h
        refine ⟨?_, fun h0 => absurd h0 hidx⟩
        rw [← h]
        simp [baseEvents, hidx]

theorem filter_allocAux_isEnforce (l : List (Option Fr)) :
    (l.map Event.allocAux).filter isEnforce = [] := by
  induction l with
  | nil => rfl
  | cons v vs ih => simp [isEnforce, ih]

theorem filter_allocAux_isAllocInput (l : List (Option Fr)) :
    (l.map Event.allocAux).filter isAllocInput = [] := by
  induction l with
  | nil => rfl
  | cons v vs ih => simp [isAllocInput, ih]

theorem filter_allocAux_isAllocAux (l : List (Option Fr)) :
    (l.map Event.allocAux).filter isAllocAux = l.map Event.allocAux := by
  induction l with
  | nil => rfl
  | cons v vs ih => simp [isAllocAux, ih]

theorem foldl_append_map {α γ : Type _} (g : α → γ) :
    ∀ (l : List α) (A : List γ),
      l.foldl (fun acc b => acc ++ [g b]) A = A ++ l.map g
  | [], A => by simp
  | x :: xs, A => by
      simp only [List.foldl_cons]
      rw [foldl_append_map g xs]
      simp

theorem foldl2_append_map {γ : Type _} (f : Nat → Nat → γ) (ny : Nat) :
    ∀ (l : List Nat) (A : List γ),
      l.foldl (fun acc m_x => (List.range ny).foldl
          (fun acc2 m_y => acc2 ++ [f m_x m_y]) acc) A
        = A ++ l.flatMap (fun m_x => (List.range ny).map (f m_x))
  | [], A => by simp
  | x :: xs, A => by
      simp only [List.foldl_cons]
      rw [foldl_append_map (f x)]
      rw [foldl2_append_map f ny xs]
      simp [List.flatMap_cons, List.append_assoc]

theorem output_fr_eq (buf : Buf) (nx ny : Nat) :
    output_fr buf nx ny
      = (rowMajor nx ny).map (fun bc => encodePixelU (buf bc.1 bc.2)) := by
  show (List.range nx).foldl (fun acc m_x => (List.range ny).foldl
      (fun acc2 m_y => acc2 ++ [encodePixelU (buf m_x m_y)]) acc) [] = _
  rw [foldl2_append_map (fun a b => encodePixelU (buf a b)) ny]
  simp [rowMajor, List.map_flatMap, List.map_map, Function.comp_def]

theorem gc_prove_mkInstance (img : Image) (ny m_x m_y index : Nat) :
    generate_constraints Mode.prove (mkInstance img ny m_x m_y).1 index
      = Except.ok (baseEvents (mkInstance img ny m_x m_y).1
          ++ (if index = 0 then [enforceEvent (mkInstance img ny m_x m_y).1] else [])) := by
  rw [gc_eq]
  · have hp100 : (mkInstance img ny m_x m_y).1.p
        < (mkInstance img ny m_x m_y).1.inps.length := by
      simp only [mkInstance, pixelList_length]
      norm_num [p]
    by_cases hidx : index = 0 <;> simp [hidx, hp100]
  · right
    constructor
    · simp only [mkInstance]
      exact pixelList_all_some img m_x m_y
    · simp only [mkInstance]
      rw [pixelList_getD]
      simp

/-! ## Claim theorems -/

/-- C1: for any source image whose width and height are exact multiples of
`n`, the prover pass binds, for every block instance, the public output value
to the witness value at selection position `p` (`tmp_out = tmp_pixels[p]`),
every prover-side `generate_constraints` call succeeds (no
`AssignmentMissing`), and verification of the (ideal-backend) proof against
the honestly generated thumbnail's public input vector returns `true`. -/
theorem C1_round_trip_honesty (img : Image) (hw : n ∣ img.width)
    (hh : n ∣ img.height) :
    (∀ ci ∈ (proverRun img).1,
        ci.1.out = ci.1.inps.getD p none ∧
        generate_constraints Mode.prove ci.1 ci.2
          = Except.ok (baseEvents ci.1
              ++ (if ci.2 = 0 then [enforceEvent ci.1] else []))) ∧
    verify_proof ((proverRun img).1.map Prod.fst)
      (io_vec (proverRun img).2 (new_x img) (new_y img)) = true := by
  constructor
  · intro ci hci
    simp only [proverRun] at hci
    rw [proverLoop_eq] at hci
    simp only [List.mem_map] at hci
    obtain ⟨bc, hbc, rfl⟩ := hci
    refine ⟨?_, ?_⟩
    · simp [mkInstance]
    · exact gc_prove_mkInstance img (new_y img) bc.1 bc.2 _
  · simp only [proverRun]
    rw [proverLoop_eq, io_vec, output_fr_eq]
    simp only [List.map_map, Function.comp_def]
    have hones : List.replicate (new_x img * new_y img) (1 : Fr)
        = (rowMajor (new_x img) (new_y img)).map (fun _ => (1 : Fr)) := by
      rw [List.map_const', rowMajor_length]
    rw [hones]
    simp only [verify_proof]
    rw [List.zip_map', List.zip_map']
    simp only [List.length_map, List.map_map, Function.comp_def]
    simp only [Bool.and_eq_true, decide_eq_true_eq]
    refine ⟨⟨by simp, by simp⟩, ?_⟩
    rw [List.all_eq_true]
    intro x hx
    simp only [List.mem_map] at hx
    obtain ⟨bc, hbc, rfl⟩ := hx
    obtain ⟨a, b⟩ := bc
    have hab := mem_rowMajor.mp hbc
    have hbuf : ((rowMajor (new_x img) (new_y img)).foldl (writeThumb img)
        (fun _ _ => zeroRgba)) a b = selPixel img a b := by
      rw [foldl_writeThumb_apply]
      simp [hbc]
    simp only [Bool.and_eq_true, decide_eq_true_eq]
    refine ⟨⟨by simp, ?_⟩, ?_⟩
    · simp only [mkInstance]
      rw [pixelList_getD, hbuf]
    · simp only [mkInstance]
      rw [pixelList_getD]
      simp [hbuf, mul_one]

/-- C1 witness: the 20-by-20 scenario image has dimensions divisible by `n`
and its honestly generated proof verifies. -/
theorem C1_round_trip_honesty_witness :
    n ∣ img20.width ∧ n ∣ img20.height ∧
    verify_proof ((proverRun img20).1.map Prod.fst)
      (io_vec (proverRun img20).2 (new_x img20) (new_y img20)) = true :=
  ⟨⟨2, rfl⟩, ⟨2, rfl⟩, (C1_round_trip_honesty img20 ⟨2, rfl⟩ ⟨2, rfl⟩).2⟩

/-- C2: every successful `generate_constraints` call emits, at instance
index `0`, exactly the single constraint `inps[p] * one = out` (A the witness
variable at index `p`, B the constant-one wire `Var.input 0`, C the public
output wire `Var.input 1`), and emits no constraint at any other index. -/
theorem C2_single_constraint (mode : Mode) (c : Thumbnail) (index : Nat)
    (evs : List Event) (h : generate_constraints mode c index = Except.ok evs) :
    (index = 0 → evs.filter isEnforce
        = [Event.enforce [(Var.aux c.p, (1 : Fr))] [(Var.input 0, (1 : Fr))]
            [(Var.input 1, (1 : Fr))]]) ∧
    (index ≠ 0 → evs.filter isEnforce = []) := by
  obtain ⟨hevs, _⟩ := gc_ok_inv mode c index evs h
  subst hevs
  constructor
  · intro h0
    simp [h0, baseEvents, List.filter_append, filter_allocAux_isEnforce,
      isEnforce, enforceEvent]
  · intro h0
    simp [h0, baseEvents, List.filter_append, filter_allocAux_isEnforce,
      isEnforce]

/-- C2 witness: the verifier-side call at index 0 emits exactly the single
selection constraint. -/
theorem C2_single_constraint_witness :
    generate_constraints Mode.verify verify_c 0
        = Except.ok (baseEvents verify_c ++ [enforceEvent verify_c]) ∧
    (baseEvents verify_c ++ [enforceEvent verify_c]).filter isEnforce
      = [Event.enforce [(Var.aux verify_c.p, (1 : Fr))]
          [(Var.input 0, (1 : Fr))] [(Var.input 1, (1 : Fr))]] := by
  have hgc : generate_constraints Mode.verify verify_c 0
      = Except.ok (baseEvents verify_c ++ [enforceEvent verify_c]) := by
    rw [gc_eq Mode.verify verify_c 0 (Or.inl rfl)]
    simp [verify_c, p]
  exact ⟨hgc, (C2_single_constraint Mode.verify verify_c 0 _ hgc).1 rfl⟩

/-- C7: every successful `generate_constraints` call (prover or verifier
path) issues, in order, one public allocation bound to the field's one, one
witness allocation per `inps` slot (so `n * n = 100` of them), and one public
allocation for the output pixel, before any constraint. -/
theorem C7_allocation_shape (mode : Mode) (c : Thumbnail) (index : Nat)
    (evs : List Event) (h : generate_constraints mode c index = Except.ok evs)
    (hlen : c.inps.length = 100) :
    evs = Event.allocInput (some 1) :: c.inps.map Event.allocAux
        ++ ([Event.allocInput c.out]
        ++ (if index = 0 then [enforceEvent c] else [])) ∧
    (evs.filter isAllocInput).length = 2 ∧
    (evs.filter isAllocAux).length = n * n := by
  obtain ⟨hevs, _⟩ := gc_ok_inv mode c index evs h
  subst hevs
  refine ⟨by simp [baseEvents], ?_, ?_⟩
  · by_cases h0 : index = 0 <;>
      simp [h0, baseEvents, List.filter_append, filter_allocAux_isAllocInput,
        isAllocInput, isEnforce, enforceEvent]
  · by_cases h0 : index = 0 <;>
      simp [h0, baseEvents, List.filter_append, filter_allocAux_isAllocAux,
        isAllocAux, enforceEvent, hlen, n]

/-- C7 witness: the verifier-side structural call has exactly this
allocation shape. -/
theorem C7_allocation_shape_witness :
    generate_constraints Mode.verify verify_c 0
        = Except.ok (baseEvents verify_c ++ [enforceEvent verify_c]) ∧
    verify_c.inps.length = 100 ∧
    ((baseEvents verify_c ++ [enforceEvent verify_c]).filter isAllocAux).length
      = n * n := by
  have hgc : generate_constraints Mode.verify verify_c 0
      = Except.ok (baseEvents verify_c ++ [enforceEvent verify_c]) := by
    rw [gc_eq Mode.verify verify_c 0 (Or.inl rfl)]
    simp [verify_c, p]
  exact ⟨hgc, by simp [verify_c],
    (C7_allocation_shape Mode.verify verify_c 0 _ hgc (by simp [verify_c])).2.2⟩

/-- C10: with the 100-slot witness array, the verifier-side
`generate_constraints` at instance index 0 succeeds exactly when
`p < n * n = 100`, and hits the out-of-bounds access (the Rust indexing
panic) exactly when `n * n ≤ p`; in particular the boundary `p = n * n`
allowed by the source comment would index past the end of the array. -/
theorem C10_selection_bounds (c : Thumbnail) (hlen : c.inps.length = 100) :
    ((∃ evs, generate_constraints Mode.verify c 0 = Except.ok evs)
        ↔ c.p < n * n) ∧
    (generate_constraints Mode.verify c 0
        = Except.error GCError.indexOutOfBounds ↔ n * n ≤ c.p) := by
  have hn2 : n * n = 100 := rfl
  rw [gc_eq Mode.verify c 0 (Or.inl rfl)]
  simp only [if_pos rfl]
  by_cases hp : c.p < c.inps.length
  · rw [if_pos hp]
    rw [hlen] at hp
    constructor
    · constructor
      · intro _
        omega
      · intro _
        exact ⟨_, rfl⟩
    · constructor
      · intro hcontra
        simp at hcontra
      · intro hge
        omega
  · rw [if_neg hp]
    rw [hlen] at hp
    constructor
    · constructor
      · rintro ⟨evs, hevs⟩
        simp at hevs
      · intro hlt
        omega
    · constructor
      · intro _
        omega
      · intro _
        rfl

/-- C10 witness: at the boundary `p = n * n` the call is out of bounds. -/
theorem C10_selection_bounds_witness :
    (Thumbnail.mk (List.replicate 100 none) none (n * n)).inps.length = 100 ∧
    generate_constraints Mode.verify
        (Thumbnail.mk (List.replicate 100 none) none (n * n)) 0
      = Except.error GCError.indexOutOfBounds :=
  ⟨by simp,
    (C10_selection_bounds (Thumbnail.mk (List.replicate 100 none) none (n * n))
      (by simp)).2.mpr (Nat.le_refl _)⟩

/-- C4: after the prover pass, the thumbnail buffer's pixel at block
coordinate `(m_x, m_y)` is the source pixel at
`(m_x * n + p / n, m_y * n + p % n)`, i.e. the pixel whose block-local
flattened index `i * n + j` equals `p`. -/
theorem C4_thumbnail_pixel (img : Image) (m_x m_y : Nat)
    (hx : m_x < new_x img) (hy : m_y < new_y img) :
    (proverRun img).2 m_x m_y = img.pixel (m_x * n + p / n) (m_y * n + p % n) := by
  simp only [proverRun]
  rw [proverLoop_buf img _ _ _ _ hx hy]
  rfl

/-- C4 witness: in the 20-by-20 scenario (4 blocks), thumbnail pixel (0, 0)
is the source pixel at block-local flattened index 5 of the top-left block,
i.e. source coordinate (0, 5). -/
theorem C4_thumbnail_pixel_witness :
    0 < new_x img20 ∧ 0 < new_y img20 ∧
    (proverRun img20).2 0 0 = img20.pixel (0 * n + p / n) (0 * n + p % n) ∧
    img20.pixel (0 * n + p / n) (0 * n + p % n) = img20.pixel 0 5 :=
  ⟨by decide, by decide,
    C4_thumbnail_pixel img20 0 0 (by decide) (by decide), rfl⟩

/-- C5: the block iteration order of the prover pass (both for the circuit
instances and for the thumbnail-buffer writes) and of the public-input
assembly is the same row-major order (`m_x` outer, `m_y` inner), and the
instance indices `m_x * new_y + m_y` enumerate `0, 1, ..., nx * ny - 1` in
order, each exactly once. -/
theorem C5_iteration_order (img : Image) (nx ny : Nat) (buf : Buf) :
    (proverLoop img nx ny).1
        = (rowMajor nx ny).map (fun bc => mkInstance img ny bc.1 bc.2) ∧
    (proverLoop img nx ny).2
        = (rowMajor nx ny).foldl (writeThumb img) (fun _ _ => zeroRgba) ∧
    output_fr buf nx ny
        = (rowMajor nx ny).map (fun bc => encodePixelU (buf bc.1 bc.2)) ∧
    (proverLoop img nx ny).1.map Prod.snd = List.range (nx * ny) := by
  refine ⟨by rw [proverLoop_eq], by rw [proverLoop_eq],
    output_fr_eq buf nx ny, ?_⟩
  rw [proverLoop_eq]
  simp only [List.map_map, Function.comp_def, mkInstance]
  exact rowMajor_map_idx nx ny

/-- The prover pass reads no source pixel outside the block grid: two images
agreeing on all pixels with coordinates below `(nx * n, ny * n)` produce
identical prover outputs. -/
theorem proverLoop_congr (img img2 : Image) (nx ny : Nat)
    (h : ∀ a b, a < nx * n → b < ny * n → img.pixel a b = img2.pixel a b) :
    proverLoop img nx ny = proverLoop img2 nx ny := by
  have hsel : ∀ bc ∈ rowMajor nx ny,
      selPixel img bc.1 bc.2 = selPixel img2 bc.1 bc.2 := by
    intro bc hbc
    obtain ⟨a, b⟩ := bc
    obtain ⟨ha, hb⟩ := mem_rowMajor.mp hbc
    have hpd : p / n = 0 := rfl
    have hpm : p % n = 5 := rfl
    simp only [selPixel]
    apply h
    · rw [hpd]
      simp only [n] at ha ⊢
      omega
    · rw [hpm]
      simp only [n] at hb ⊢
      omega
  have hpl : ∀ bc ∈ rowMajor nx ny,
      pixelList img bc.1 bc.2 = pixelList img2 bc.1 bc.2 := by
    intro bc hbc
    obtain ⟨a, b⟩ := bc
    obtain ⟨ha, hb⟩ := mem_rowMajor.mp hbc
    simp only [pixelList]
    apply List.map_congr_left
    intro k hk
    simp only [List.mem_range] at hk
    have hb1 : a * n + k / n < nx * n := by
      have hkd : k / n < n := by
        simp only [n]
        omega
      simp only [n] at ha hkd ⊢
      omega
    have hb2 : b * n + k % n < ny * n := by
      have hkm : k % n < n := Nat.mod_lt _ (by norm_num [n])
      simp only [n] at hb hkm ⊢
      omega
    rw [h _ _ hb1 hb2]
  rw [proverLoop_eq, proverLoop_eq]
  refine congrArg₂ Prod.mk ?_ ?_
  · apply List.map_congr_left
    intro bc hbc
    simp [mkInstance, hpl bc hbc]
  · apply List.foldl_ext
    intro acc bc hbc
    simp [writeThumb, hsel bc hbc]

/-- C6: block grid geometry is truncating integer division
(`new_x = width / n`, `new_y = height / n`, `block_count = new_x * new_y`),
and source pixels in the truncated trailing rows/columns are never read: the
whole prover output and the public input vector built from it only depend on
pixels below `(new_x * n, new_y * n)`. -/
theorem C6_geometry (img img2 : Image)
    (h : ∀ a b, a < new_x img * n → b < new_y img * n →
      img.pixel a b = img2.pixel a b) :
    new_x img = img.width / n ∧ new_y img = img.height / n ∧
    m img = new_x img * new_y img ∧
    proverLoop img (new_x img) (new_y img)
      = proverLoop img2 (new_x img) (new_y img) ∧
    io_vec (proverLoop img (new_x img) (new_y img)).2 (new_x img) (new_y img)
      = io_vec (proverLoop img2 (new_x img) (new_y img)).2 (new_x img)
          (new_y img) := by
  have h4 := proverLoop_congr img img2 (new_x img) (new_y img) h
  exact ⟨rfl, rfl, rfl, h4, by rw [h4]⟩

/-- C6 witness: a 25-by-25 image truncates to a 2-by-2 block grid, and
altering only the five trailing rows/columns leaves the prover output
unchanged. -/
theorem C6_geometry_witness :
    (∀ a b, a < new_x img25 * n → b < new_y img25 * n →
      img25.pixel a b = img25'.pixel a b) ∧
    new_x img25 = 2 ∧
    proverLoop img25 (new_x img25) (new_y img25)
      = proverLoop img25' (new_x img25) (new_y img25) := by
  have hag : ∀ a b, a < new_x img25 * n → b < new_y img25 * n →
      img25.pixel a b = img25'.pixel a b := by
    intro a b ha hb
    have ha2 : a < 20 := by
      simpa [new_x, img25, n] using ha
    have hb2 : b < 20 := by
      simpa [new_y, img25, n] using hb
    simp [img25, img25', ha2, hb2]
  exact ⟨hag, rfl, (C6_geometry img25 img25' hag).2.2.2.1⟩

/-- `u32::next_power_of_two` returns the least power of two greater than or
equal to its argument. -/
theorem next_power_of_two_spec (x : Nat) :
    (∃ k, next_power_of_two x = 2 ^ k) ∧ x ≤ next_power_of_two x ∧
    ∀ j, x ≤ 2 ^ j → next_power_of_two x ≤ 2 ^ j := by
  unfold next_power_of_two
  by_cases hx : x ≤ 1
  · rw [if_pos hx]
    exact ⟨⟨0, by norm_num⟩, by omega,
      fun j _ => Nat.one_le_pow j 2 (by norm_num)⟩
  · rw [if_neg hx]
    have hx1 : x - 1 ≠ 0 := by omega
    rw [Nat.log2_eq_log_two]
    refine ⟨⟨Nat.log 2 (x - 1) + 1, rfl⟩, ?_, ?_⟩
    · have hlt := Nat.lt_pow_succ_log_self (by norm_num : 1 < 2) (x - 1)
      simp only [Nat.succ_eq_add_one] at hlt
      omega
    · intro j hj
      have hlt : Nat.log 2 (x - 1) < j :=
        Nat.log_lt_of_lt_pow hx1 (by omega)
      exact Nat.pow_le_pow_right (by norm_num) hlt

/-- C8: the degree handed to setup and trim is `next_power_of_two` of the
block count: a power of two, at least `block_count`, and the least such
power.  The hypothesis keeps the block count inside the `u32` range where
the Rust computation cannot overflow. -/
theorem C8_setup_degree (img : Image) (h : m img ≤ 2 ^ 31) :
    degree img = next_power_of_two (m img) ∧
    (∃ k, degree img = 2 ^ k) ∧
    m img ≤ degree img ∧
    (∀ j, m img ≤ 2 ^ j → degree img ≤ 2 ^ j) := by
  obtain ⟨h1, h2, h3⟩ := next_power_of_two_spec (m img)
  exact ⟨rfl, h1, h2, h3⟩

/-- C8 witness: the 4-block scenario image gets setup degree 4. -/
theorem C8_setup_degree_witness :
    m img20 ≤ 2 ^ 31 ∧ m img20 ≤ degree img20 ∧ degree img20 = 4 := by
  have hm : m img20 = 4 := rfl
  have hth := C8_setup_degree img20 (by rw [hm]; norm_num)
  refine ⟨by rw [hm]; norm_num, hth.2.2.1, ?_⟩
  have hge := hth.2.2.1
  have hmin := hth.2.2.2 2 (by rw [hm]; norm_num)
  rw [hm] at hge
  have h4 : (2 : Nat) ^ 2 = 4 := by norm_num
  rw [h4] at hmin
  omega

/-- C9: pixel encoding is a pure function of the pixel's channel bytes:
any two pixels with equal raw bytes — wherever they occur, source image or
thumbnail buffer, prover path or public-input assembly — encode to the same
field element, and the encoding never fails on a pixel. -/
theorem C9_encoding_determinism (img1 img2 : Image) (x1 y1 x2 y2 : Nat)
    (h : as_bytes (img1.pixel x1 y1) = as_bytes (img2.pixel x2 y2)) :
    from_random_bytes (as_bytes (img1.pixel x1 y1))
        = from_random_bytes (as_bytes (img2.pixel x2 y2)) ∧
    encodePixelU (img1.pixel x1 y1) = encodePixelU (img2.pixel x2 y2) ∧
    from_random_bytes (as_bytes (img1.pixel x1 y1))
        = some (encodePixel (img1.pixel x1 y1)) := by
  refine ⟨by rw [h], ?_, from_random_bytes_as_bytes _⟩
  rw [encodePixelU, encodePixelU, h]

/-- C9 witness: two positions holding byte-identical pixels encode
identically. -/
theorem C9_encoding_determinism_witness :
    as_bytes (imgC3.pixel 0 0) = as_bytes (imgC3.pixel 3 7) ∧
    encodePixelU (imgC3.pixel 0 0) = encodePixelU (imgC3.pixel 3 7) :=
  ⟨rfl, (C9_encoding_determinism imgC3 imgC3 0 0 3 7 rfl).2.1⟩

/-- C3 counterexample: the code builds the public input vector from the
in-memory thumbnail buffer, not from the persisted image: for a codec whose
save/load round trip loses the pixels, the code's public input vector
differs from the one the claim describes (re-encoded from the persisted
image). -/
theorem C3_counterexample :
    io_vec (proverRun imgC3).2 (new_x imgC3) (new_y imgC3)
      ≠ io_vec_spec lossyRoundtrip (proverRun imgC3).2 (new_x imgC3)
          (new_y imgC3) := by
  haveI : Fact (1 < frModulus) := ⟨by norm_num [frModulus]⟩
  intro hcontra
  simp only [io_vec, io_vec_spec, List.cons.injEq, and_true] at hcontra
  have h2 := hcontra.2
  rw [output_fr_eq, output_fr_eq] at h2
  have hrm : rowMajor (new_x imgC3) (new_y imgC3) = [(0, 0)] := rfl
  rw [hrm] at h2
  simp only [List.map_cons, List.map_nil, List.cons.injEq, and_true] at h2
  have hbuf : (proverRun imgC3).2 0 0 = selPixel imgC3 0 0 := by
    simp only [proverRun]
    exact proverLoop_buf imgC3 _ _ 0 0 (by norm_num [new_x, imgC3, n])
      (by norm_num [new_y, imgC3, n])
  rw [hbuf] at h2
  have h1v : encodePixelU (selPixel imgC3 0 0) = 1 := by
    rw [encodePixelU_eq]
    have hsp : selPixel imgC3 0 0 = ⟨1, 0, 0, 0⟩ := rfl
    rw [hsp]
    simp [encodePixel, as_bytes, bytesToNatLE]
  have h0v : encodePixelU (lossyRoundtrip (proverRun imgC3).2 0 0) = 0 := by
    rw [encodePixelU_eq]
    have hz : lossyRoundtrip (proverRun imgC3).2 0 0 = zeroRgba := rfl
    rw [hz]
    simp [encodePixel, as_bytes, bytesToNatLE, zeroRgba]
  rw [h1v, h0v] at h2
  exact one_ne_zero h2

/-- C3 amended: the Public Input Vector is exactly two groups — `block_count`
copies of one, then the re-encoded thumbnail pixels in row-major block
order — where the pixels are re-read from the in-memory thumbnail buffer
(the buffer that was saved to storage), not from the persisted file and not
from the field elements computed during prover statement construction. -/
theorem C3_amended_public_inputs (buf : Buf) (nx ny : Nat) :
    io_vec buf nx ny = [List.replicate (nx * ny) (1 : Fr),
      (rowMajor nx ny).map (fun bc => encodePixelU (buf bc.1 bc.2))] := by
  rw [io_vec, output_fr_eq]

end ThumbnailZkp
